import Mathlib

/-!
Verification of the meeting-intelligence pipeline
(`meeting_processing/{diarization,transcription,retrieval}.py`).

Times are embedded as rationals (`ℚ`); the Python field `end` is rendered
as `stop` because `end` is a Lean keyword.  External collaborators
(ffmpeg, Whisper, the Chroma vector index) are modelled as oracle
parameters: the code under verification only post-processes their output.
-/

namespace MeetingIntelligence

/-- A diarization segment `{speaker, start, end}` (diarization.py).
`stop` embeds the Python key `end`. -/
structure Segment where
  speaker : String
  start : ℚ
  stop : ℚ
deriving DecidableEq

/-- The merge condition tested by `merge_same_speaker_segments`
(diarization.py lines 177-180): same speaker and
`next["start"] - current["end"] <= max_gap_seconds`. -/
def canMerge (maxGap : ℚ) (current next : Segment) : Prop :=
  next.speaker = current.speaker ∧ next.start - current.stop ≤ maxGap

instance (maxGap : ℚ) (current next : Segment) :
    Decidable (canMerge maxGap current next) := by
  unfold canMerge; infer_instance

/-- The loop of `merge_same_speaker_segments` (diarization.py lines
172-189): `current` is the running accumulator; on a merge the
accumulator's `end` is extended, otherwise the accumulator is emitted
and restarted; the final accumulator is always emitted. -/
def mergeLoop (maxGap : ℚ) (current : Segment) : List Segment → List Segment
  | [] => [current]
  | next :: rest =>
    if canMerge maxGap current next then
      mergeLoop maxGap { current with stop := next.stop } rest
    else
      current :: mergeLoop maxGap next rest

/-- `merge_same_speaker_segments(segments, max_gap_seconds)`
(diarization.py lines 154-193).  Empty input returns `[]`; otherwise the
accumulator starts as a copy of the first segment. -/
def merge_same_speaker_segments (segments : List Segment)
    (maxGap : ℚ) : List Segment :=
  match segments with
  | [] => []
  | s :: rest => mergeLoop maxGap s rest

/-- Total speaking time of speaker `P` in a segment list: the sum of
`end - start` over that speaker's segments. -/
def speakerTime (P : String) (l : List Segment) : ℚ :=
  ((l.filter (fun s => s.speaker = P)).map (fun s => s.stop - s.start)).sum

/-- Sum, over adjacent pairs that `merge_same_speaker_segments` merges and
whose speaker is `P`, of the gap `next.start - current.end` that the merge
absorbs into the merged segment's duration. -/
def mergedGapSum (g : ℚ) (P : String) : List Segment → ℚ
  | [] => 0
  | [_] => 0
  | a :: b :: rest =>
    (if a.speaker = P ∧ canMerge g a b then b.start - a.stop else 0)
      + mergedGapSum g P (b :: rest)

/-- Sum over adjacent same-speaker pairs with speaker `P` of the gap
between them (the spec's "gaps between consecutive same-speaker
segments"). -/
def sameSpeakerGapSum (P : String) : List Segment → ℚ
  | [] => 0
  | [_] => 0
  | a :: b :: rest =>
    (if a.speaker = P ∧ b.speaker = a.speaker then b.start - a.stop else 0)
      + sameSpeakerGapSum P (b :: rest)

lemma speakerTime_nil (P : String) : speakerTime P [] = 0 := rfl

lemma speakerTime_cons (P : String) (s : Segment) (l : List Segment) :
    speakerTime P (s :: l)
      = (if s.speaker = P then s.stop - s.start else 0) + speakerTime P l := by
  by_cases h : s.speaker = P <;>
    simp [speakerTime, List.filter_cons, h]

lemma canMerge_congr_left (g : ℚ) {a a' : Segment} (b : Segment)
    (hs : a.speaker = a'.speaker) (he : a.stop = a'.stop) :
    canMerge g a b ↔ canMerge g a' b := by
  simp [canMerge, hs, he]

lemma mergedGapSum_congr_head (g : ℚ) (P : String) {a a' : Segment}
    (l : List Segment) (hs : a.speaker = a'.speaker) (he : a.stop = a'.stop) :
    mergedGapSum g P (a :: l) = mergedGapSum g P (a' :: l) := by
  cases l with
  | nil => rfl
  | cons b rest =>
    simp only [mergedGapSum, hs, he, canMerge]

/-- The head of the loop output carries the accumulator's speaker and
start, and the output is never empty. -/
lemma mergeLoop_head (g : ℚ) :
    ∀ (l : List Segment) (c : Segment),
    ∃ t ts, mergeLoop g c l = t :: ts ∧ t.speaker = c.speaker ∧ t.start = c.start := by
  intro l
  induction l with
  | nil => exact fun c => ⟨c, [], rfl, rfl, rfl⟩
  | cons n rest ih =>
    intro c
    by_cases h : canMerge g c n
    · obtain ⟨t, ts, he, hs, hst⟩ := ih { c with stop := n.stop }
      exact ⟨t, ts, by rw [mergeLoop, if_pos h, he], hs, hst⟩
    · exact ⟨c, mergeLoop g n rest, by rw [mergeLoop, if_neg h], rfl, rfl⟩

/-- Adjacent segments in the loop output never satisfy the merge
condition: each emitted boundary is exactly a failed merge test. -/
lemma mergeLoop_chain (g : ℚ) :
    ∀ (l : List Segment) (c : Segment),
    List.Chain' (fun a b => ¬ canMerge g a b) (mergeLoop g c l) := by
  intro l
  induction l with
  | nil => intro c; simp [mergeLoop]
  | cons n rest ih =>
    intro c
    by_cases h : canMerge g c n
    · rw [mergeLoop, if_pos h]; exact ih _
    · rw [mergeLoop, if_neg h]
      obtain ⟨t, ts, he, hs, hst⟩ := mergeLoop_head g rest n
      rw [he]
      refine List.Chain'.cons ?_ (he ▸ ih n)
      intro hc
      exact h (by simpa [canMerge, hs, hst] using hc)

/-- A list on which every adjacent pair fails the merge condition is a
fixed point of the merge. -/
lemma merge_fixed (g : ℚ) :
    ∀ (l : List Segment),
    List.Chain' (fun a b => ¬ canMerge g a b) l →
    merge_same_speaker_segments l g = l := by
  intro l
  induction l with
  | nil => intro _; rfl
  | cons a rest ih =>
    intro h
    cases rest with
    | nil => rfl
    | cons b rest2 =>
      rw [List.chain'_cons] at h
      have htail : merge_same_speaker_segments (b :: rest2) g = b :: rest2 :=
        ih h.2
      show mergeLoop g a (b :: rest2) = a :: b :: rest2
      rw [mergeLoop, if_neg h.1]
      exact congrArg (a :: ·) htail

/-- Claim C3: `merge_same_speaker_segments` is idempotent — applying it
to its own output with the same threshold returns that output
unchanged. -/
theorem merge_same_speaker_segments_idempotent (S : List Segment) (g : ℚ) :
    merge_same_speaker_segments (merge_same_speaker_segments S g) g
      = merge_same_speaker_segments S g := by
  cases S with
  | nil => rfl
  | cons s rest => exact merge_fixed g _ (mergeLoop_chain g rest s)

/-- Per-speaker time accounting of the merge loop: the accumulator's
pending duration plus the remaining input's durations plus every gap the
loop will absorb. -/
lemma mergeLoop_speakerTime (g : ℚ) (P : String) :
    ∀ (l : List Segment) (c : Segment),
    speakerTime P (mergeLoop g c l)
      = (if c.speaker = P then c.stop - c.start else 0)
        + speakerTime P l + mergedGapSum g P (c :: l) := by
  intro l
  induction l with
  | nil =>
    intro c
    simp [mergeLoop, speakerTime_cons, speakerTime_nil, mergedGapSum]
  | cons n rest ih =>
    intro c
    by_cases h : canMerge g c n
    · rw [mergeLoop, if_pos h]
      rw [ih { c with stop := n.stop }]
      have hsp : n.speaker = c.speaker := h.1
      have hgs : mergedGapSum g P ({ c with stop := n.stop } :: rest)
          = mergedGapSum g P (n :: rest) :=
        mergedGapSum_congr_head g P rest (by simpa using hsp.symm) rfl
      rw [hgs, speakerTime_cons]
      have hhead : mergedGapSum g P (c :: n :: rest)
          = (if c.speaker = P ∧ canMerge g c n then n.start - c.stop else 0)
            + mergedGapSum g P (n :: rest) := rfl
      rw [hhead]
      by_cases hp : c.speaker = P
      · have hp' : n.speaker = P := hsp.trans hp
        simp only [hp, hp', if_pos, if_true, h, and_true]
        ring
      · have hp' : ¬ n.speaker = P := fun hq => hp (hsp ▸ hq)
        simp only [hp, hp', if_false, false_and, if_neg, not_false_iff]
        ring
    · rw [mergeLoop, if_neg h]
      rw [speakerTime_cons, ih n, speakerTime_cons]
      have hhead : mergedGapSum g P (c :: n :: rest)
          = (if c.speaker = P ∧ canMerge g c n then n.start - c.stop else 0)
            + mergedGapSum g P (n :: rest) := rfl
      have hno : ¬ (c.speaker = P ∧ canMerge g c n) := fun hc => h hc.2
      rw [hhead, if_neg hno]
      ring

/-- Unconditional accounting identity for the merge: per-speaker total
time of the output equals the input's per-speaker total plus the merged
gaps of that speaker. -/
lemma merge_speakerTime (S : List Segment) (g : ℚ) (P : String) :
    speakerTime P (merge_same_speaker_segments S g)
      = speakerTime P S + mergedGapSum g P S := by
  cases S with
  | nil => simp [merge_same_speaker_segments, speakerTime_nil, mergedGapSum]
  | cons s rest =>
    show speakerTime P (mergeLoop g s rest) = _
    rw [mergeLoop_speakerTime g P rest s, speakerTime_cons]

/-- When every adjacent same-speaker gap is within the threshold, the
pairs the code merges are exactly the adjacent same-speaker pairs. -/
lemma mergedGapSum_eq_sameSpeakerGapSum (g : ℚ) (P : String) :
    ∀ (S : List Segment),
    List.Chain' (fun a b => a.speaker = b.speaker → b.start - a.stop ≤ g) S →
    mergedGapSum g P S = sameSpeakerGapSum P S := by
  intro S
  induction S with
  | nil => intro _; rfl
  | cons a rest ih =>
    intro h
    cases rest with
    | nil => rfl
    | cons b rest2 =>
      rw [List.chain'_cons] at h
      have hcond : (a.speaker = P ∧ canMerge g a b)
          ↔ (a.speaker = P ∧ b.speaker = a.speaker) := by
        constructor
        · rintro ⟨h1, h2, _⟩; exact ⟨h1, h2⟩
        · rintro ⟨h1, h2⟩; exact ⟨h1, h2, h.1 h2.symm⟩
      show (if a.speaker = P ∧ canMerge g a b then b.start - a.stop else 0)
            + mergedGapSum g P (b :: rest2) = _
      rw [ih h.2, if_congr hcond rfl rfl]
      rfl

/-- Claim C2 (counterexample): a chronologically ordered input whose
only same-speaker gap is within the threshold, on which the merged
per-speaker total time differs from the input's per-speaker total — the
absorbed gap enlarges the merged duration. -/
theorem merge_per_speaker_time_counterexample :
    List.Chain' (fun a b => a.start ≤ b.start)
      [(⟨"A", 0, 1⟩ : Segment), ⟨"A", 3/2, 2⟩]
    ∧ List.Chain' (fun a b => a.speaker = b.speaker → b.start - a.stop ≤ 1)
      [(⟨"A", 0, 1⟩ : Segment), ⟨"A", 3/2, 2⟩]
    ∧ speakerTime "A"
        (merge_same_speaker_segments [⟨"A", 0, 1⟩, ⟨"A", 3/2, 2⟩] 1)
      ≠ speakerTime "A" [⟨"A", 0, 1⟩, ⟨"A", 3/2, 2⟩] := by
  refine ⟨?_, ?_, ?_⟩
  · norm_num
  · norm_num [canMerge]
  · norm_num [merge_same_speaker_segments, mergeLoop, canMerge,
      speakerTime_cons, speakerTime_nil]

/-- Claim C2 (amended): for a chronologically ordered segment list in
which every gap between adjacent same-speaker segments is at most the
threshold, the merged per-speaker total speaking time equals the sum of
the original per-speaker durations PLUS the gaps between adjacent
same-speaker segments of that speaker (the absorbed gaps), so the
original equality holds exactly when those gaps are zero. -/
theorem merge_per_speaker_time_gap_identity (S : List Segment) (g : ℚ)
    (P : String)
    (_hchron : List.Chain' (fun a b => a.start ≤ b.start) S)
    (hgap : List.Chain' (fun a b => a.speaker = b.speaker → b.start - a.stop ≤ g) S) :
    speakerTime P (merge_same_speaker_segments S g)
      = speakerTime P S + sameSpeakerGapSum P S := by
  rw [merge_speakerTime S g P, mergedGapSum_eq_sameSpeakerGapSum g P S hgap]

/-- Witness for C2's amended theorem at a concrete input. -/
theorem merge_per_speaker_time_gap_identity_witness :
    speakerTime "A"
        (merge_same_speaker_segments [⟨"A", 0, 1⟩, ⟨"A", 3/2, 2⟩] 1)
      = speakerTime "A" [(⟨"A", 0, 1⟩ : Segment), ⟨"A", 3/2, 2⟩]
        + sameSpeakerGapSum "A" [⟨"A", 0, 1⟩, ⟨"A", 3/2, 2⟩] :=
  merge_per_speaker_time_gap_identity
    [⟨"A", 0, 1⟩, ⟨"A", 3/2, 2⟩] 1 "A"
    (by norm_num)
    (by norm_num)

lemma mergeLoop_length (g : ℚ) :
    ∀ (l : List Segment) (c : Segment),
    (mergeLoop g c l).length ≤ l.length + 1 := by
  intro l
  induction l with
  | nil => intro c; simp [mergeLoop]
  | cons n rest ih =>
    intro c
    by_cases h : canMerge g c n
    · rw [mergeLoop, if_pos h]
      exact le_trans (ih _) (by simp)
    · rw [mergeLoop, if_neg h]
      simpa using Nat.succ_le_succ (ih n)

lemma mergeLoop_mem_origin (g : ℚ) :
    ∀ (l : List Segment) (c t : Segment), t ∈ mergeLoop g c l →
    (t.speaker = c.speaker ∧ t.start = c.start)
      ∨ ∃ s ∈ l, t.speaker = s.speaker ∧ t.start = s.start := by
  intro l
  induction l with
  | nil =>
    intro c t ht
    rw [mergeLoop] at ht
    rcases List.mem_singleton.mp ht with rfl
    exact Or.inl ⟨rfl, rfl⟩
  | cons n rest ih =>
    intro c t ht
    by_cases h : canMerge g c n
    · rw [mergeLoop, if_pos h] at ht
      rcases ih _ t ht with hl | ⟨s, hs, hss⟩
      · exact Or.inl hl
      · exact Or.inr ⟨s, List.mem_cons_of_mem n hs, hss⟩
    · rw [mergeLoop, if_neg h] at ht
      rcases List.mem_cons.mp ht with rfl | ht2
      · exact Or.inl ⟨rfl, rfl⟩
      · rcases ih n t ht2 with hl | ⟨s, hs, hss⟩
        · exact Or.inr ⟨n, List.mem_cons_self n rest, hl⟩
        · exact Or.inr ⟨s, List.mem_cons_of_mem n hs, hss⟩

/-- Claim C9: the merge never lengthens its input, is non-empty on
non-empty input (the final accumulator is always emitted), every output
segment's speaker and start come from some input segment, and the first
output segment starts where the first input segment starts. -/
theorem merge_output_invariants (g : ℚ) (S : List Segment) :
    (merge_same_speaker_segments S g).length ≤ S.length
    ∧ (S ≠ [] → merge_same_speaker_segments S g ≠ [])
    ∧ (∀ t ∈ merge_same_speaker_segments S g,
        ∃ s ∈ S, t.speaker = s.speaker ∧ t.start = s.start)
    ∧ (∀ s0 rest, S = s0 :: rest →
        ∃ t ts, merge_same_speaker_segments S g = t :: ts
          ∧ t.speaker = s0.speaker ∧ t.start = s0.start) := by
  refine ⟨?_, ?_, ?_, ?_⟩
  · cases S with
    | nil => simp [merge_same_speaker_segments]
    | cons s rest => exact mergeLoop_length g rest s
  · intro hne
    cases S with
    | nil => exact absurd rfl hne
    | cons s rest =>
      obtain ⟨t, ts, he, _, _⟩ := mergeLoop_head g rest s
      show mergeLoop g s rest ≠ []
      rw [he]
      exact List.cons_ne_nil t ts
  · intro t ht
    cases S with
    | nil => simp [merge_same_speaker_segments] at ht
    | cons s rest =>
      rcases mergeLoop_mem_origin g rest s t ht with hl | ⟨u, hu, huu⟩
      · exact ⟨s, List.mem_cons_self s rest, hl⟩
      · exact ⟨u, List.mem_cons_of_mem s hu, huu⟩
  · intro s0 rest hS
    subst hS
    obtain ⟨t, ts, he, hs, hst⟩ := mergeLoop_head g rest s0
    exact ⟨t, ts, he, hs, hst⟩

/-- Witness for C9 at a concrete input. -/
theorem merge_output_invariants_witness :
    ([(⟨"A", 0, 1⟩ : Segment), ⟨"A", 2, 3⟩] ≠ [])
    ∧ merge_same_speaker_segments [(⟨"A", 0, 1⟩ : Segment), ⟨"A", 2, 3⟩] 1 ≠ []
    ∧ (∃ t ts,
        merge_same_speaker_segments [(⟨"A", 0, 1⟩ : Segment), ⟨"A", 2, 3⟩] 1
          = t :: ts ∧ t.speaker = "A" ∧ t.start = 0) := by
  have h := merge_output_invariants 1 [(⟨"A", 0, 1⟩ : Segment), ⟨"A", 2, 3⟩]
  refine ⟨List.cons_ne_nil _ _, h.2.1 (List.cons_ne_nil _ _), ?_⟩
  obtain ⟨t, ts, he, hs, hst⟩ := h.2.2.2 ⟨"A", 0, 1⟩ [⟨"A", 2, 3⟩] rfl
  exact ⟨t, ts, he, hs, hst⟩

/-- An utterance `{id, speaker, start, end, text}` (transcription.py
lines 207-213).  `stop` embeds the Python key `end`. -/
structure Utterance where
  id : Nat
  speaker : String
  start : ℚ
  stop : ℚ
  text : String
deriving DecidableEq

/-- Outcome of the external calls made for one diarization segment
inside `transcribe_segments` (transcription.py lines 188-204): audio
extraction may fail (`extract_audio_segment` raises `RuntimeError`, the
code logs and `continue`s), transcription may fail (`transcribe_segment`
raises, the code substitutes the sentinel), or transcription returns
text.  ffmpeg and Whisper are outside the embedded code, so the outcome
per enumeration index and segment is an oracle parameter. -/
inductive SegOutcome where
  | extractFail
  | transcribeFail
  | transcribed (text : String)
deriving DecidableEq

/-- The fixed sentinel substituted on per-segment transcription failure
(transcription.py line 204). -/
def transcriptionFailedText : String := "[TRANSCRIPTION FAILED]"

/-- The loop of `transcribe_segments` (transcription.py lines 182-215):
segments are enumerated starting at 1; an extraction failure skips the
segment (`continue`), a transcription failure substitutes the sentinel
text; the built utterance copies the segment's speaker, start and
end. -/
def transcribeLoop (env : Nat → Segment → SegOutcome) :
    Nat → List Segment → List Utterance
  | _, [] => []
  | idx, seg :: rest =>
    match env idx seg with
    | .extractFail => transcribeLoop env (idx + 1) rest
    | .transcribeFail =>
        { id := idx, speaker := seg.speaker, start := seg.start,
          stop := seg.stop, text := transcriptionFailedText }
          :: transcribeLoop env (idx + 1) rest
    | .transcribed t =>
        { id := idx, speaker := seg.speaker, start := seg.start,
          stop := seg.stop, text := t }
          :: transcribeLoop env (idx + 1) rest

/-- `transcribe_segments(meeting_id, diarization_segments, title)`
restricted to its utterance-building loop; enumeration starts at 1. -/
def transcribe_segments (env : Nat → Segment → SegOutcome)
    (diarization_segments : List Segment) : List Utterance :=
  transcribeLoop env 1 diarization_segments

/-- What one produced utterance must look like: position `i` of the
output (0-based) is the utterance for input segment `i`, has id
`idx + i`, copies the segment's fields, and its text is the sentinel
exactly on transcription failure. -/
def utteranceMatches (env : Nat → Segment → SegOutcome) (idxi : Nat)
    (seg : Segment) (u : Utterance) : Prop :=
  u.id = idxi
  ∧ u.speaker = seg.speaker
  ∧ u.start = seg.start
  ∧ u.stop = seg.stop
  ∧ (env idxi seg = SegOutcome.transcribeFail →
      u.text = transcriptionFailedText)
  ∧ (∀ t, env idxi seg = SegOutcome.transcribed t → u.text = t)

lemma transcribeLoop_spec (env : Nat → Segment → SegOutcome)
    (hext : ∀ idx s, env idx s ≠ SegOutcome.extractFail) :
    ∀ (segs : List Segment) (idx : Nat),
    (transcribeLoop env idx segs).length = segs.length
    ∧ (transcribeLoop env idx segs).map (fun u => u.id)
        = List.range' idx segs.length
    ∧ ∀ (i : Nat) (hs : i < segs.length),
        ∃ u, (transcribeLoop env idx segs).get? i = some u
          ∧ utteranceMatches env (idx + i) (segs.get ⟨i, hs⟩) u := by
  intro segs
  induction segs with
  | nil =>
    intro idx
    refine ⟨rfl, rfl, ?_⟩
    intro i hs
    exact absurd hs (by simp)
  | cons seg rest ih =>
    intro idx
    cases henv : env idx seg with
    | extractFail => exact absurd henv (hext idx seg)
    | transcribeFail =>
      have hloop : transcribeLoop env idx (seg :: rest)
          = { id := idx, speaker := seg.speaker, start := seg.start,
              stop := seg.stop, text := transcriptionFailedText }
            :: transcribeLoop env (idx + 1) rest := by
        rw [transcribeLoop, henv]
      obtain ⟨ihlen, ihmap, ihget⟩ := ih (idx + 1)
      refine ⟨by simp [hloop, ihlen], ?_, ?_⟩
      · simp only [hloop, List.map_cons, ihmap, List.length_cons]
        rw [List.range'_succ]
      · intro i hs
        cases i with
        | zero =>
          refine ⟨_, by rw [hloop]; rfl, by simp, rfl, rfl, rfl,
            fun _ => rfl, ?_⟩
          intro t ht
          have ht2 : env idx seg = SegOutcome.transcribed t := ht
          rw [henv] at ht2
          cases ht2
        | succ j =>
          have hs2 : j < rest.length := by
            simp only [List.length_cons] at hs
            omega
          obtain ⟨u, hu, hm⟩ := ihget j hs2
          have hidx : idx + 1 + j = idx + (j + 1) := by omega
          refine ⟨u, ?_, ?_⟩
          · rw [hloop]
            simpa using hu
          · show utteranceMatches env (idx + (j + 1)) (rest.get ⟨j, hs2⟩) u
            rw [← hidx]
            exact hm
    | transcribed t0 =>
      have hloop : transcribeLoop env idx (seg :: rest)
          = { id := idx, speaker := seg.speaker, start := seg.start,
              stop := seg.stop, text := t0 }
            :: transcribeLoop env (idx + 1) rest := by
        rw [transcribeLoop, henv]
      obtain ⟨ihlen, ihmap, ihget⟩ := ih (idx + 1)
      refine ⟨by simp [hloop, ihlen], ?_, ?_⟩
      · simp only [hloop, List.map_cons, ihmap, List.length_cons]
        rw [List.range'_succ]
      · intro i hs
        cases i with
        | zero =>
          refine ⟨_, by rw [hloop]; rfl, by simp, rfl, rfl, rfl, ?_, ?_⟩
          · intro hcontra
            have hc2 : env idx seg = SegOutcome.transcribeFail := hcontra
            rw [henv] at hc2
            cases hc2
          · intro t ht
            have ht2 : env idx seg = SegOutcome.transcribed t := ht
            rw [henv] at ht2
            injection ht2 with h
        | succ j =>
          have hs2 : j < rest.length := by
            simp only [List.length_cons] at hs
            omega
          obtain ⟨u, hu, hm⟩ := ihget j hs2
          have hidx : idx + 1 + j = idx + (j + 1) := by omega
          refine ⟨u, ?_, ?_⟩
          · rw [hloop]
            simpa using hu
          · show utteranceMatches env (idx + (j + 1)) (rest.get ⟨j, hs2⟩) u
            rw [← hidx]
            exact hm

/-- Claim C1: in a run where audio extraction succeeds for every segment
(so the only per-segment failures are transcription failures, the case
the claim speaks about), a transcription failure is non-fatal:
`transcribe_segments` substitutes the fixed sentinel
"[TRANSCRIPTION FAILED]" for that utterance's text and continues, no
segment is dropped, the produced ids are exactly 1..n contiguous, and
each utterance keeps its segment's speaker, start and end. -/
theorem transcribe_segments_failure_nonfatal
    (env : Nat → Segment → SegOutcome) (segs : List Segment)
    (hext : ∀ idx s, env idx s ≠ SegOutcome.extractFail) :
    (transcribe_segments env segs).length = segs.length
    ∧ (transcribe_segments env segs).map (fun u => u.id)
        = List.range' 1 segs.length
    ∧ ∀ (i : Nat) (hs : i < segs.length),
        ∃ u, (transcribe_segments env segs).get? i = some u
          ∧ u.id = i + 1
          ∧ u.speaker = (segs.get ⟨i, hs⟩).speaker
          ∧ u.start = (segs.get ⟨i, hs⟩).start
          ∧ u.stop = (segs.get ⟨i, hs⟩).stop
          ∧ (env (i + 1) (segs.get ⟨i, hs⟩) = SegOutcome.transcribeFail →
              u.text = transcriptionFailedText) := by
  obtain ⟨hlen, hmap, hget⟩ := transcribeLoop_spec env hext segs 1
  refine ⟨hlen, hmap, ?_⟩
  intro i hs
  obtain ⟨u, hu, h1, h2, h3, h4, h5, _⟩ := hget i hs
  have hcomm : 1 + i = i + 1 := Nat.add_comm 1 i
  rw [hcomm] at h1 h5
  exact ⟨u, hu, h1, h2, h3, h4, h5⟩

/-- Concrete one-failure environment for the C1 witness: segment 2's
transcription fails, extraction always succeeds. -/
def envC1 : Nat → Segment → SegOutcome :=
  fun idx _ =>
    if idx = 2 then SegOutcome.transcribeFail else SegOutcome.transcribed "ok"

/-- Concrete segments for the C1 witness. -/
def segsC1 : List Segment := [⟨"SPEAKER_0", 0, 1⟩, ⟨"SPEAKER_1", 1, 2⟩]

/-- Witness for C1 at a concrete input with one transcription failure. -/
theorem transcribe_segments_failure_nonfatal_witness :
    (∀ idx s, envC1 idx s ≠ SegOutcome.extractFail)
    ∧ (transcribe_segments envC1 segsC1).length = segsC1.length
    ∧ (transcribe_segments envC1 segsC1).map (fun u => u.id)
        = List.range' 1 segsC1.length := by
  have hext : ∀ idx s, envC1 idx s ≠ SegOutcome.extractFail := by
    intro idx s
    unfold envC1
    split <;> simp
  have h := transcribe_segments_failure_nonfatal envC1 segsC1 hext
  exact ⟨hext, h.1, h.2.1⟩

/-- The `metadata` object of the transcript document
(transcription.py lines 229-236), restricted to the fields with
algorithmic content. -/
structure TranscriptMetadata where
  total_utterances : Nat
  total_duration : ℚ
deriving DecidableEq

/-- The transcript document `{meeting_id, title, utterances, metadata}`
(transcription.py lines 225-237). -/
structure Transcript where
  meeting_id : String
  title : String
  utterances : List Utterance
  metadata : TranscriptMetadata
deriving DecidableEq

/-- `max(u["end"] for u in utterances) if utterances else 0.0`
(transcription.py lines 230-233). -/
def maxStop : List Utterance → ℚ
  | [] => 0
  | u :: rest => rest.foldl (fun acc v => max acc v.stop) u.stop

/-- The transcript assembly of `transcribe_segments` (transcription.py
lines 224-237): `title or f"Meeting {meeting_id}"`, the produced
utterance list, and metadata computed from that same list. -/
def build_transcript (meeting_id : String) (title : Option String)
    (utterances : List Utterance) : Transcript :=
  { meeting_id := meeting_id
    title := title.getD ("Meeting " ++ meeting_id)
    utterances := utterances
    metadata :=
      { total_utterances := utterances.length
        total_duration := maxStop utterances } }

lemma foldl_max_stop_spec :
    ∀ (l : List Utterance) (init : ℚ),
    (init ≤ l.foldl (fun acc v => max acc v.stop) init
      ∧ ∀ u ∈ l, u.stop ≤ l.foldl (fun acc v => max acc v.stop) init)
    ∧ (l.foldl (fun acc v => max acc v.stop) init = init
        ∨ l.foldl (fun acc v => max acc v.stop) init ∈ l.map (fun u => u.stop)) := by
  intro l
  induction l with
  | nil => exact fun init => ⟨⟨le_refl _, by simp⟩, Or.inl rfl⟩
  | cons u rest ih =>
    intro init
    obtain ⟨⟨hle, hub⟩, hmem⟩ := ih (max init u.stop)
    refine ⟨⟨le_trans (le_max_left _ _) hle, ?_⟩, ?_⟩
    · intro v hv
      rcases List.mem_cons.mp hv with rfl | hv2
      · exact le_trans (le_max_right _ _) hle
      · exact hub v hv2
    · rcases hmem with heq | hin
      · rw [List.foldl_cons, heq]
        rcases max_choice init u.stop with h1 | h2
        · exact Or.inl h1
        · exact Or.inr (by rw [h2]; exact List.mem_cons_self _ _)
      · exact Or.inr (List.mem_cons_of_mem _ hin)

lemma maxStop_le (l : List Utterance) : ∀ u ∈ l, u.stop ≤ maxStop l := by
  cases l with
  | nil => simp
  | cons u rest =>
    intro v hv
    rcases List.mem_cons.mp hv with rfl | hv2
    · exact (foldl_max_stop_spec rest v.stop).1.1
    · exact (foldl_max_stop_spec rest u.stop).1.2 v hv2

lemma maxStop_mem (l : List Utterance) (h : l ≠ []) :
    maxStop l ∈ l.map (fun u => u.stop) := by
  cases l with
  | nil => exact absurd rfl h
  | cons u rest =>
    rcases (foldl_max_stop_spec rest u.stop).2 with heq | hin
    · exact List.mem_map.mpr ⟨u, List.mem_cons_self _ _, (by simpa [maxStop] using heq.symm)⟩
    · exact List.mem_cons_of_mem _ (by simpa [maxStop] using hin)

/-- Claim C10: the transcript document assembled by the transcription
pipeline always has `total_utterances` equal to the length of its
utterance list and `total_duration` equal to the maximum `end` over its
utterances (`0` when the list is empty), so the persisted metadata is
consistent with the utterance list it accompanies. -/
theorem transcript_metadata_consistent
    (env : Nat → Segment → SegOutcome) (segs : List Segment)
    (meeting_id : String) (title : Option String) :
    (build_transcript meeting_id title
        (transcribe_segments env segs)).metadata.total_utterances
      = (build_transcript meeting_id title
          (transcribe_segments env segs)).utterances.length
    ∧ (∀ u ∈ (build_transcript meeting_id title
          (transcribe_segments env segs)).utterances,
        u.stop ≤ (build_transcript meeting_id title
          (transcribe_segments env segs)).metadata.total_duration)
    ∧ ((build_transcript meeting_id title
          (transcribe_segments env segs)).utterances = [] →
        (build_transcript meeting_id title
          (transcribe_segments env segs)).metadata.total_duration = 0)
    ∧ ((build_transcript meeting_id title
          (transcribe_segments env segs)).utterances ≠ [] →
        (build_transcript meeting_id title
            (transcribe_segments env segs)).metadata.total_duration
          ∈ (build_transcript meeting_id title
              (transcribe_segments env segs)).utterances.map (fun u => u.stop)) := by
  refine ⟨rfl, ?_, ?_, ?_⟩
  · exact maxStop_le _
  · intro h
    show maxStop (transcribe_segments env segs) = 0
    rw [show (build_transcript meeting_id title
        (transcribe_segments env segs)).utterances
        = transcribe_segments env segs from rfl] at h
    rw [h]
    rfl
  · intro h
    exact maxStop_mem _ h

/-- Concrete environment for the C10 witness. -/
def envC10 : Nat → Segment → SegOutcome :=
  fun _ _ => SegOutcome.transcribed "hello"

/-- Concrete segments for the C10 witness. -/
def segsC10 : List Segment := [⟨"SPEAKER_0", 0, 2⟩, ⟨"SPEAKER_0", 3, 4⟩]

/-- Witness for C10 at a concrete input. -/
theorem transcript_metadata_consistent_witness :
    ((build_transcript "m1" none
        (transcribe_segments envC10 segsC10)).utterances ≠ [])
    ∧ (build_transcript "m1" none
        (transcribe_segments envC10 segsC10)).metadata.total_duration
      ∈ (build_transcript "m1" none
          (transcribe_segments envC10 segsC10)).utterances.map (fun u => u.stop) := by
  have hne : (build_transcript "m1" none
      (transcribe_segments envC10 segsC10)).utterances ≠ [] := by
    simp [build_transcript, transcribe_segments, transcribeLoop, envC10, segsC10]
  exact ⟨hne,
    (transcript_metadata_consistent envC10 segsC10 "m1" none).2.2.2 hne⟩

/-- A search result `{id, speaker, start, end, text, score?}`
(retrieval.py; spec data model).  `score` is optional: keyword-mode
results and index rows without a score have none, and
`x.get("score", 0)` reads 0 for them. -/
structure SearchResult where
  id : Nat
  speaker : String
  start : ℚ
  stop : ℚ
  text : String
  score : Option ℚ
deriving DecidableEq

/-- The sort key of
`all_results.sort(key=lambda x: x.get("score", 0), reverse=True)`
(retrieval.py line 130). -/
def scoreKey (r : SearchResult) : ℚ := r.score.getD 0

/-- One step of a stable descending insertion by key: the new element
goes before the first element whose key is not greater, so among equal
keys the earlier-received element stays first. -/
def stableInsertDesc {α β : Type} [LinearOrder β] (key : α → β) (a : α) :
    List α → List α
  | [] => [a]
  | x :: xs =>
    if key x ≤ key a then a :: x :: xs else x :: stableInsertDesc key a xs

/-- Stable descending sort by key: the embedding of Python's
`list.sort(key=..., reverse=True)` (CPython's sort is stable, and with
`reverse=True` equal keys still keep their original relative order). -/
def stableSortDesc {α β : Type} [LinearOrder β] (key : α → β) :
    List α → List α
  | [] => []
  | a :: rest => stableInsertDesc key a (stableSortDesc key rest)

lemma stableInsertDesc_perm {α β : Type} [LinearOrder β] (key : α → β)
    (a : α) : ∀ (l : List α), (stableInsertDesc key a l).Perm (a :: l) := by
  intro l
  induction l with
  | nil => exact List.Perm.refl _
  | cons x xs ih =>
    by_cases h : key x ≤ key a
    · rw [stableInsertDesc, if_pos h]
    · rw [stableInsertDesc, if_neg h]
      exact (ih.cons x).trans (List.Perm.swap a x xs)

lemma stableSortDesc_perm {α β : Type} [LinearOrder β] (key : α → β) :
    ∀ (l : List α), (stableSortDesc key l).Perm l := by
  intro l
  induction l with
  | nil => exact List.Perm.refl _
  | cons a rest ih =>
    exact (stableInsertDesc_perm key a _).trans (ih.cons a)

lemma stableInsertDesc_pairwise {α β : Type} [LinearOrder β] (key : α → β)
    (a : α) :
    ∀ (l : List α), l.Pairwise (fun x y => key y ≤ key x) →
    (stableInsertDesc key a l).Pairwise (fun x y => key y ≤ key x) := by
  intro l
  induction l with
  | nil => intro _; simp [stableInsertDesc]
  | cons x xs ih =>
    intro h
    rw [List.pairwise_cons] at h
    by_cases hle : key x ≤ key a
    · rw [stableInsertDesc, if_pos hle]
      refine List.Pairwise.cons ?_ (List.Pairwise.cons h.1 h.2)
      intro b hb
      rcases List.mem_cons.mp hb with rfl | hb2
      · exact hle
      · exact le_trans (h.1 b hb2) hle
    · rw [stableInsertDesc, if_neg hle]
      refine List.Pairwise.cons ?_ (ih h.2)
      intro b hb
      rcases List.mem_cons.mp ((stableInsertDesc_perm key a xs).mem_iff.mp hb) with
        rfl | hb2
      · exact le_of_lt (lt_of_not_le hle)
      · exact h.1 b hb2

lemma stableSortDesc_pairwise {α β : Type} [LinearOrder β] (key : α → β) :
    ∀ (l : List α),
    (stableSortDesc key l).Pairwise (fun x y => key y ≤ key x) := by
  intro l
  induction l with
  | nil => simp [stableSortDesc]
  | cons a rest ih => exact stableInsertDesc_pairwise key a _ ih

lemma stableInsertDesc_filter {α β : Type} [LinearOrder β] (key : α → β)
    (a : α) (k : β) :
    ∀ (l : List α),
    (stableInsertDesc key a l).filter (fun x => key x = k)
      = if key a = k then a :: l.filter (fun x => key x = k)
        else l.filter (fun x => key x = k) := by
  intro l
  induction l with
  | nil =>
    by_cases hk : key a = k <;> simp [stableInsertDesc, hk]
  | cons x xs ih =>
    by_cases hle : key x ≤ key a
    · rw [stableInsertDesc, if_pos hle]
      by_cases hk : key a = k <;> simp [List.filter_cons, hk]
    · rw [stableInsertDesc, if_neg hle]
      have hlt : key a < key x := lt_of_not_le hle
      by_cases hk : key a = k
      · have hxk : ¬ key x = k := by
          intro hxk
          rw [hxk, ← hk] at hlt
          exact lt_irrefl _ hlt
        simp [List.filter_cons, hxk, ih, hk]
      · by_cases hxk : key x = k <;> simp [List.filter_cons, hxk, ih, hk]

lemma stableSortDesc_filter {α β : Type} [LinearOrder β] (key : α → β)
    (k : β) :
    ∀ (l : List α),
    (stableSortDesc key l).filter (fun x => key x = k)
      = l.filter (fun x => key x = k) := by
  intro l
  induction l with
  | nil => rfl
  | cons a rest ih =>
    rw [stableSortDesc, stableInsertDesc_filter key a k, ih]
    by_cases hk : key a = k <;> simp [List.filter_cons, hk]

/-- In a descending-sorted list, any member whose key strictly exceeds
the key at position `i` of the `m`-prefix occurs at an earlier position
of that prefix. -/
lemma sorted_take_earlier {α β : Type} [LinearOrder β] (key : α → β)
    (l : List α) (hs : l.Pairwise (fun x y => key y ≤ key x))
    (m i : Nat) (hi : i < (l.take m).length)
    (r2 : α) (hr2 : r2 ∈ l)
    (hgt : key ((l.take m).get ⟨i, hi⟩) < key r2) :
    ∃ (j : Nat) (hj : j < (l.take m).length),
      j < i ∧ (l.take m).get ⟨j, hj⟩ = r2 := by
  obtain ⟨n, hn, hval⟩ := List.mem_iff_getElem.mp hr2
  have hi' : i < l.length := lt_of_lt_of_le hi (by simp [List.length_take])
  have heq : (l.take m).get ⟨i, hi⟩ = l[i] := List.getElem_take l
  have hsorted := List.pairwise_iff_getElem.mp hs
  have hni : n < i := by
    by_contra hcon
    push_neg at hcon
    rcases Nat.lt_or_ge i n with hlt | hge
    · have := hsorted i n hi' hn hlt
      rw [hval, ← heq] at this
      exact absurd hgt (not_lt.mpr this)
    · have hin : i = n := le_antisymm hcon hge
      subst hin
      rw [← hval, ← heq] at hgt
      exact lt_irrefl _ hgt
  have hj : n < (l.take m).length := lt_trans hni hi
  refine ⟨n, hj, hni, ?_⟩
  rw [show (l.take m).get ⟨n, hj⟩ = (l.take m)[n] from rfl,
    List.getElem_take l, hval]

/-- `reverse_speaker_map.get(role, role)` (retrieval.py line 103): the
the reverse map is a Python dict, embedded as an association list with
unique keys; a missing role falls back to the role string itself. -/
def resolveSpeakerId (reverse_speaker_map : List (String × String))
    (role : String) : String :=
  match reverse_speaker_map.find? (fun p => p.1 = role) with
  | some p => p.2
  | none => role

/-- `_semantic_search(meeting_id, query, speaker_roles, max_results,
reverse_speaker_map)` (retrieval.py lines 77-135).  The external index
call `chroma_search_meeting` is an oracle: `chromaSearchAll` is its
result for the unscoped query and `chromaSearchSpeaker s` its result
scoped to speaker filter `s` (the meeting id, query text and
`n_results=max_results` are fixed for the whole call).  With a truthy
roles list each role is resolved through the reverse map (falling back
to the role itself) and queried separately, and the per-role results are
concatenated; then the combined list is stably sorted by
`x.get("score", 0)` descending and truncated to `max_results`. -/
def _semantic_search (chromaSearchAll : List SearchResult)
    (chromaSearchSpeaker : String → List SearchResult)
    (speaker_roles : List String) (max_results : Nat)
    (reverse_speaker_map : List (String × String)) : List SearchResult :=
  let all_results :=
    if speaker_roles.isEmpty then chromaSearchAll
    else speaker_roles.flatMap
      (fun role => chromaSearchSpeaker (resolveSpeakerId reverse_speaker_map role))
  (stableSortDesc scoreKey all_results).take max_results

/-- `s.lower().split()` as a token list (Python `str.split()` with no
argument splits on whitespace and drops empty pieces), modelled over the
string's character list: lowercase every character, split at whitespace,
drop the empty pieces. -/
def tokenize (s : String) : List String :=
  (((s.data.map Char.toLower).splitOnP (fun c => c.isWhitespace)).filter
      (fun t => t ≠ [])).map (fun cs => String.mk cs)

/-- `len(query_tokens & text_tokens)` with both sides Python sets
(retrieval.py lines 165-176): the number of distinct text tokens that
also occur among the query tokens. -/
def overlapScore (query_tokens : List String) (text : String) : Nat :=
  ((tokenize text).dedup.filter (fun t => t ∈ query_tokens)).length

/-- `_keyword_search(meeting_id, query, speaker_roles, max_results)`
(retrieval.py lines 138-189): utterances failing the direct
`utt["speaker"] not in speaker_roles` membership test are skipped when
the roles list is truthy; pairs `(overlap, utt)` are kept only for
positive overlap; the pairs are stably sorted by overlap descending,
truncated to `max_results`, and the scores dropped.  The stored
utterance list for the meeting is the `utterances` parameter. -/
def _keyword_search (utterances : List Utterance) (query : String)
    (speaker_roles : List String) (max_results : Nat) : List Utterance :=
  let query_tokens := tokenize query
  let scored_utterances := utterances.filterMap (fun utt =>
    if ¬ speaker_roles.isEmpty ∧ utt.speaker ∉ speaker_roles then none
    else
      if overlapScore query_tokens utt.text > 0 then
        some (overlapScore query_tokens utt.text, utt)
      else none)
  ((stableSortDesc (fun p => p.1) scored_utterances).take max_results).map
    (fun p => p.2)

/-- The linear scan of `get_context_around_utterance` (retrieval.py
lines 211-216): index of the first utterance whose `id` matches. -/
def findUtteranceIdx (utterance_id : Nat) : List Utterance → Option Nat
  | [] => none
  | u :: rest =>
    if u.id = utterance_id then some 0
    else (findUtteranceIdx utterance_id rest).map (fun i => i + 1)

/-- `get_context_around_utterance(meeting_id, utterance_id,
context_size)` (retrieval.py lines 192-231): empty if the id is absent,
otherwise the slice `[max(0, idx-size) : min(len, idx+size+1)]` of the
transcript's utterance list (truncated Nat subtraction is the
`max(0, ...)` clamp). -/
def get_context_around_utterance (utterances : List Utterance)
    (utterance_id : Nat) (context_size : Nat) : List Utterance :=
  match findUtteranceIdx utterance_id utterances with
  | none => []
  | some target_idx =>
    (utterances.take
        (min utterances.length (target_idx + context_size + 1))).drop
      (target_idx - context_size)

/-- Claim C5: every semantic search returns the `max_results`-prefix of
the stable descending sort (missing scores read as 0) of the combined
fetched set: the returned list is sorted non-increasing by score, equal
scores keep the order in which results were received from the index
(stability, stated as filter-invariance at every score level), and at
most `max_results` elements are returned. -/
theorem semantic_search_sorted_truncated
    (chromaSearchAll : List SearchResult)
    (chromaSearchSpeaker : String → List SearchResult)
    (speaker_roles : List String) (max_results : Nat)
    (reverse_speaker_map : List (String × String)) :
    _semantic_search chromaSearchAll chromaSearchSpeaker speaker_roles
        max_results reverse_speaker_map
      = (stableSortDesc scoreKey
          (if speaker_roles.isEmpty then chromaSearchAll
           else speaker_roles.flatMap
             (fun role => chromaSearchSpeaker
               (resolveSpeakerId reverse_speaker_map role)))).take max_results
    ∧ (_semantic_search chromaSearchAll chromaSearchSpeaker speaker_roles
        max_results reverse_speaker_map).Pairwise
          (fun a b => scoreKey b ≤ scoreKey a)
    ∧ (_semantic_search chromaSearchAll chromaSearchSpeaker speaker_roles
        max_results reverse_speaker_map).length ≤ max_results
    ∧ ∀ q : ℚ,
        (stableSortDesc scoreKey
          (if speaker_roles.isEmpty then chromaSearchAll
           else speaker_roles.flatMap
             (fun role => chromaSearchSpeaker
               (resolveSpeakerId reverse_speaker_map role)))).filter
          (fun r => scoreKey r = q)
        = (if speaker_roles.isEmpty then chromaSearchAll
           else speaker_roles.flatMap
             (fun role => chromaSearchSpeaker
               (resolveSpeakerId reverse_speaker_map role))).filter
          (fun r => scoreKey r = q) := by
  refine ⟨rfl, ?_, ?_, ?_⟩
  · exact List.Pairwise.sublist (List.take_sublist _ _)
      (stableSortDesc_pairwise scoreKey _)
  · show ((stableSortDesc scoreKey _).take max_results).length ≤ max_results
    rw [List.length_take]
    exact min_le_left _ _
  · intro q
    exact stableSortDesc_filter scoreKey q _

/-- Claim C4: with a non-empty roles list, semantic search builds a
single global list from the per-role sub-queries (each role resolved
through the reverse map), sorts it once by score, and only then
truncates to `max_results`; consequently any fetched result whose score
strictly exceeds the score of a returned result is itself returned and
at an earlier position — a higher-scoring result of one role always
appears ahead of lower-scoring results of any role. -/
theorem semantic_search_global_rerank
    (chromaSearchAll : List SearchResult)
    (chromaSearchSpeaker : String → List SearchResult)
    (speaker_roles : List String) (max_results : Nat)
    (reverse_speaker_map : List (String × String))
    (hroles : speaker_roles ≠ []) :
    _semantic_search chromaSearchAll chromaSearchSpeaker speaker_roles
        max_results reverse_speaker_map
      = (stableSortDesc scoreKey
          (speaker_roles.flatMap
            (fun role => chromaSearchSpeaker
              (resolveSpeakerId reverse_speaker_map role)))).take max_results
    ∧ ∀ (i : Nat) (r1 r2 : SearchResult),
        (_semantic_search chromaSearchAll chromaSearchSpeaker speaker_roles
          max_results reverse_speaker_map).get? i = some r1 →
        r2 ∈ speaker_roles.flatMap
          (fun role => chromaSearchSpeaker
            (resolveSpeakerId reverse_speaker_map role)) →
        scoreKey r1 < scoreKey r2 →
        ∃ j, j < i
          ∧ (_semantic_search chromaSearchAll chromaSearchSpeaker
              speaker_roles max_results reverse_speaker_map).get? j
            = some r2 := by
  have hempty : speaker_roles.isEmpty = false := by
    cases speaker_roles with
    | nil => exact absurd rfl hroles
    | cons r rs => rfl
  have hdef : _semantic_search chromaSearchAll chromaSearchSpeaker
      speaker_roles max_results reverse_speaker_map
      = (stableSortDesc scoreKey
          (speaker_roles.flatMap
            (fun role => chromaSearchSpeaker
              (resolveSpeakerId reverse_speaker_map role)))).take max_results := by
    rw [_semantic_search, hempty]
    rfl
  refine ⟨hdef, ?_⟩
  intro i r1 r2 h1 h2 hlt
  rw [hdef] at h1
  obtain ⟨hi, hval⟩ := List.get?_eq_some.mp h1
  have hr2sorted : r2 ∈ stableSortDesc scoreKey
      (speaker_roles.flatMap
        (fun role => chromaSearchSpeaker
          (resolveSpeakerId reverse_speaker_map role))) :=
    (stableSortDesc_perm scoreKey _).mem_iff.mpr h2
  obtain ⟨j, hj, hji, hjval⟩ :=
    sorted_take_earlier scoreKey _ (stableSortDesc_pairwise scoreKey _)
      max_results i hi r2 hr2sorted (by rw [hval]; exact hlt)
  refine ⟨j, hji, ?_⟩
  rw [hdef]
  rw [List.get?_eq_get hj, hjval]

/-- Concrete per-speaker index oracle for the C4 witness. -/
def chromaSpC4 : String → List SearchResult :=
  fun s =>
    if s = "SPEAKER_0" then
      [⟨1, "SPEAKER_0", 0, 1, "alpha", some (9/10)⟩,
       ⟨2, "SPEAKER_0", 2, 3, "beta", some (1/2)⟩]
    else if s = "SPEAKER_1" then
      [⟨3, "SPEAKER_1", 4, 5, "gamma", some (7/10)⟩]
    else []

/-- Concrete reverse speaker map for the C4 witness. -/
def rmapC4 : List (String × String) :=
  [("CEO", "SPEAKER_0"), ("CFO", "SPEAKER_1")]

/-- Witness for C4 at a concrete two-role input. -/
theorem semantic_search_global_rerank_witness :
    (["CEO", "CFO"] ≠ ([] : List String))
    ∧ (_semantic_search [] chromaSpC4 ["CEO", "CFO"] 2 rmapC4
        = (stableSortDesc scoreKey
            ((["CEO", "CFO"] : List String).flatMap
              (fun role => chromaSpC4 (resolveSpeakerId rmapC4 role)))).take 2
      ∧ ∀ (i : Nat) (r1 r2 : SearchResult),
          (_semantic_search [] chromaSpC4 ["CEO", "CFO"] 2 rmapC4).get? i
            = some r1 →
          r2 ∈ (["CEO", "CFO"] : List String).flatMap
            (fun role => chromaSpC4 (resolveSpeakerId rmapC4 role)) →
          scoreKey r1 < scoreKey r2 →
          ∃ j, j < i
            ∧ (_semantic_search [] chromaSpC4 ["CEO", "CFO"] 2 rmapC4).get? j
              = some r2) :=
  ⟨by decide,
    semantic_search_global_rerank [] chromaSpC4 ["CEO", "CFO"] 2 rmapC4
      (by decide)⟩

/-- With a non-empty roles list, the keyword scoring pass keeps exactly
the utterances whose stored `speaker` is a member of the roles list:
scoring the full list equals scoring the membership-filtered list with
no role filter. -/
lemma keyword_scored_roles_filter (qt : List String)
    (speaker_roles : List String) (hroles : speaker_roles ≠ []) :
    ∀ (utterances : List Utterance),
    utterances.filterMap (fun utt =>
      if ¬ speaker_roles.isEmpty ∧ utt.speaker ∉ speaker_roles then none
      else
        if overlapScore qt utt.text > 0 then
          some (overlapScore qt utt.text, utt)
        else none)
      = (utterances.filter (fun u => u.speaker ∈ speaker_roles)).filterMap
          (fun utt =>
            if ¬ ([] : List String).isEmpty ∧ utt.speaker ∉ ([] : List String)
            then none
            else
              if overlapScore qt utt.text > 0 then
                some (overlapScore qt utt.text, utt)
              else none) := by
  have hempty : speaker_roles.isEmpty = false := by
    cases speaker_roles with
    | nil => exact absurd rfl hroles
    | cons a l => rfl
  intro utterances
  induction utterances with
  | nil => rfl
  | cons u rest ih =>
    by_cases hmem : u.speaker ∈ speaker_roles
    · have hc1 : ¬ (¬ speaker_roles.isEmpty ∧ u.speaker ∉ speaker_roles) :=
        fun hc => hc.2 hmem
      have hc2 : ¬ (¬ ([] : List String).isEmpty
          ∧ u.speaker ∉ ([] : List String)) := by simp
      rw [List.filter_cons, if_pos (by simpa using hmem)]
      rw [List.filterMap_cons, List.filterMap_cons, if_neg hc1, if_neg hc2]
      by_cases hov : overlapScore qt u.text > 0
      · rw [if_pos hov]
        exact congrArg _ ih
      · rw [if_neg hov]
        exact ih
    · have hc1 : ¬ speaker_roles.isEmpty ∧ u.speaker ∉ speaker_roles :=
        ⟨by simp [hempty], hmem⟩
      rw [List.filter_cons, if_neg (by simpa using hmem)]
      rw [List.filterMap_cons, if_pos hc1]
      exact ih

/-- Any utterance returned by the keyword search with a non-empty roles
list passed the membership test on its stored speaker. -/
lemma keyword_search_mem_roles (utterances : List Utterance)
    (query : String) (speaker_roles : List String) (max_results : Nat)
    (hroles : speaker_roles ≠ []) :
    ∀ u ∈ _keyword_search utterances query speaker_roles max_results,
      u.speaker ∈ speaker_roles := by
  have hempty : speaker_roles.isEmpty = false := by
    cases speaker_roles with
    | nil => exact absurd rfl hroles
    | cons a l => rfl
  intro u hu
  simp only [_keyword_search] at hu
  obtain ⟨p, hp, hpu⟩ := List.mem_map.mp hu
  have hp2 : p ∈ stableSortDesc (fun p => p.1)
      (utterances.filterMap (fun utt =>
        if ¬ speaker_roles.isEmpty ∧ utt.speaker ∉ speaker_roles then none
        else
          if overlapScore (tokenize query) utt.text > 0 then
            some (overlapScore (tokenize query) utt.text, utt)
          else none)) :=
    (List.take_sublist _ _).subset hp
  have hp3 := (stableSortDesc_perm (fun p : Nat × Utterance => p.1) _).mem_iff.mp hp2
  obtain ⟨utt, hutt, hf⟩ := List.mem_filterMap.mp hp3
  by_cases hcond : ¬ speaker_roles.isEmpty ∧ utt.speaker ∉ speaker_roles
  · rw [if_pos hcond] at hf
    cases hf
  · rw [if_neg hcond] at hf
    by_cases hov : overlapScore (tokenize query) utt.text > 0
    · rw [if_pos hov] at hf
      injection hf with hf2
      have hspk : utt.speaker ∈ speaker_roles := by
        by_contra hno
        exact hcond ⟨by simp [hempty], hno⟩
      rw [← hpu, ← hf2]
      exact hspk
    · rw [if_neg hov] at hf
      cases hf

/-- Claim C6: keyword-mode role filtering is a direct membership test on
the stored `speaker` value — scoring with a non-empty roles list equals
pre-filtering utterances by `speaker ∈ roles` and searching with no role
filter, and every returned utterance's stored speaker is one of the
requested roles — while semantic mode instead resolves each role through
the reverse speaker map (with the role itself as fallback) and queries
the index per resolved speaker id. -/
theorem keyword_search_role_filter_exact (utterances : List Utterance)
    (query : String) (speaker_roles : List String) (max_results : Nat)
    (chromaSearchAll : List SearchResult)
    (chromaSearchSpeaker : String → List SearchResult)
    (reverse_speaker_map : List (String × String))
    (hroles : speaker_roles ≠ []) :
    _keyword_search utterances query speaker_roles max_results
      = _keyword_search
          (utterances.filter (fun u => u.speaker ∈ speaker_roles))
          query [] max_results
    ∧ (∀ u ∈ _keyword_search utterances query speaker_roles max_results,
        u.speaker ∈ speaker_roles)
    ∧ _semantic_search chromaSearchAll chromaSearchSpeaker speaker_roles
        max_results reverse_speaker_map
      = (stableSortDesc scoreKey
          (speaker_roles.flatMap
            (fun role => chromaSearchSpeaker
              (resolveSpeakerId reverse_speaker_map role)))).take max_results := by
  have hempty : speaker_roles.isEmpty = false := by
    cases speaker_roles with
    | nil => exact absurd rfl hroles
    | cons a l => rfl
  refine ⟨?_, keyword_search_mem_roles utterances query speaker_roles
    max_results hroles, ?_⟩
  · simp only [_keyword_search]
    rw [keyword_scored_roles_filter (tokenize query) speaker_roles hroles
      utterances]
  · rw [_semantic_search, hempty]
    rfl

/-- Concrete utterances for the C6 witness: one mapped role, one raw
label. -/
def uttsC6 : List Utterance :=
  [⟨1, "CEO", 0, 1, "margins improved"⟩,
   ⟨2, "SPEAKER_1", 1, 2, "margins declined"⟩]

/-- Witness for C6 at a concrete input. -/
theorem keyword_search_role_filter_exact_witness :
    (["CEO"] ≠ ([] : List String))
    ∧ _keyword_search uttsC6 "margins" ["CEO"] 5
      = _keyword_search (uttsC6.filter (fun u => u.speaker ∈ ["CEO"]))
          "margins" [] 5
    ∧ (∀ u ∈ _keyword_search uttsC6 "margins" ["CEO"] 5,
        u.speaker ∈ ["CEO"])
    ∧ _semantic_search [] chromaSpC4 ["CEO"] 5 rmapC4
      = (stableSortDesc scoreKey
          ((["CEO"] : List String).flatMap
            (fun role => chromaSpC4 (resolveSpeakerId rmapC4 role)))).take 5 := by
  have h := keyword_search_role_filter_exact uttsC6 "margins" ["CEO"] 5
    [] chromaSpC4 rmapC4 (by decide)
  exact ⟨by decide, h.1, h.2.1, h.2.2⟩

/-- Claim C7: every utterance returned by keyword search shares at least
one lowercase whitespace-split token with the query — a zero-overlap
utterance is never returned. -/
theorem keyword_search_token_overlap (utterances : List Utterance)
    (query : String) (speaker_roles : List String) (max_results : Nat) :
    ∀ u ∈ _keyword_search utterances query speaker_roles max_results,
      ∃ t, t ∈ tokenize u.text ∧ t ∈ tokenize query := by
  intro u hu
  simp only [_keyword_search] at hu
  obtain ⟨p, hp, hpu⟩ := List.mem_map.mp hu
  have hp2 : p ∈ stableSortDesc (fun p => p.1)
      (utterances.filterMap (fun utt =>
        if ¬ speaker_roles.isEmpty ∧ utt.speaker ∉ speaker_roles then none
        else
          if overlapScore (tokenize query) utt.text > 0 then
            some (overlapScore (tokenize query) utt.text, utt)
          else none)) :=
    (List.take_sublist _ _).subset hp
  have hp3 := (stableSortDesc_perm (fun p : Nat × Utterance => p.1) _).mem_iff.mp hp2
  obtain ⟨utt, hutt, hf⟩ := List.mem_filterMap.mp hp3
  by_cases hcond : ¬ speaker_roles.isEmpty ∧ utt.speaker ∉ speaker_roles
  · rw [if_pos hcond] at hf
    cases hf
  · rw [if_neg hcond] at hf
    by_cases hov : overlapScore (tokenize query) utt.text > 0
    · rw [if_pos hov] at hf
      injection hf with hf2
      have hne : ((tokenize utt.text).dedup.filter
          (fun t => t ∈ tokenize query)) ≠ [] := by
        intro hnil
        rw [overlapScore, hnil] at hov
        exact lt_irrefl 0 hov
      obtain ⟨t, ht⟩ := List.exists_mem_of_ne_nil _ hne
      have ht2 := List.mem_filter.mp ht
      refine ⟨t, ?_, ?_⟩
      · rw [← hpu, ← hf2]
        exact List.mem_dedup.mp ht2.1
      · simpa using ht2.2
    · rw [if_neg hov] at hf
      cases hf

/-- Concrete utterances for the C7 witness. -/
def uttsC7 : List Utterance :=
  [⟨1, "CEO", 0, 1, "Margins improved this quarter"⟩]

/-- Witness for C7 at a concrete input. -/
theorem keyword_search_token_overlap_witness :
    (⟨1, "CEO", 0, 1, "Margins improved this quarter"⟩ : Utterance)
      ∈ _keyword_search uttsC7 "margins question" [] 5
    ∧ ∃ t, t ∈ tokenize
        (⟨1, "CEO", 0, 1, "Margins improved this quarter"⟩ : Utterance).text
      ∧ t ∈ tokenize "margins question" := by
  have hmem : (⟨1, "CEO", 0, 1, "Margins improved this quarter"⟩ : Utterance)
      ∈ _keyword_search uttsC7 "margins question" [] 5 := by decide
  exact ⟨hmem,
    keyword_search_token_overlap uttsC7 "margins question" [] 5 _ hmem⟩

lemma findUtteranceIdx_none (uid : Nat) :
    ∀ (utts : List Utterance), (∀ u ∈ utts, u.id ≠ uid) →
    findUtteranceIdx uid utts = none := by
  intro utts
  induction utts with
  | nil => intro _; rfl
  | cons u rest ih =>
    intro h
    rw [findUtteranceIdx, if_neg (h u (List.mem_cons_self u rest)),
      ih (fun v hv => h v (List.mem_cons_of_mem u hv))]
    rfl

lemma findUtteranceIdx_eq_some (uid : Nat) :
    ∀ (utts : List Utterance) (k : Nat) (hk : k < utts.length),
    (utts.get ⟨k, hk⟩).id = uid →
    (∀ (j : Nat) (hj : j < utts.length), j < k → (utts.get ⟨j, hj⟩).id ≠ uid) →
    findUtteranceIdx uid utts = some k := by
  intro utts
  induction utts with
  | nil =>
    intro k hk
    exact absurd hk (by simp)
  | cons u rest ih =>
    intro k hk hid hbefore
    cases k with
    | zero =>
      have hid0 : u.id = uid := hid
      rw [findUtteranceIdx, if_pos hid0]
    | succ m =>
      have hu : u.id ≠ uid := hbefore 0 (by simp) (Nat.succ_pos m)
      have hm : m < rest.length := by
        simp only [List.length_cons] at hk
        omega
      have hid2 : (rest.get ⟨m, hm⟩).id = uid := hid
      have hbefore2 : ∀ (j : Nat) (hj : j < rest.length), j < m →
          (rest.get ⟨j, hj⟩).id ≠ uid := by
        intro j hj hjm
        exact hbefore (j + 1) (by simpa using Nat.succ_lt_succ hj)
          (Nat.succ_lt_succ hjm)
      rw [findUtteranceIdx, if_neg hu, ih m hm hid2 hbefore2]
      rfl

/-- A transcript whose utterance at each position `i` has id `i + 1` has
id list `range' 1 n`. -/
lemma map_id_eq_range (utts : List Utterance)
    (hid : ∀ (i : Nat) (h : i < utts.length), (utts.get ⟨i, h⟩).id = i + 1) :
    utts.map (fun u => u.id) = List.range' 1 utts.length := by
  apply List.ext_getElem
  · simp
  · intro i h1 h2
    rw [List.getElem_map, List.getElem_range']
    have h3 : i < utts.length := by simpa using h1
    have := hid i h3
    rw [show utts[i] = utts.get ⟨i, h3⟩ from rfl, this]
    omega

/-- Claim C8: on a transcript with sequential 1-based ids, the context
window for id 5 with radius 2 returns exactly the utterances with ids
[3,4,5,6,7] in order; at the left boundary, id 1 with radius 2 returns
[1,2,3] (the window is clamped, no negative indices); and an absent id
yields the empty list. -/
theorem context_window_clamped :
    (∀ (utts : List Utterance),
      utts.length = 10 →
      (∀ (i : Nat) (h : i < utts.length), (utts.get ⟨i, h⟩).id = i + 1) →
      (get_context_around_utterance utts 5 2).map (fun u => u.id)
          = [3, 4, 5, 6, 7]
        ∧ (get_context_around_utterance utts 1 2).map (fun u => u.id)
          = [1, 2, 3])
    ∧ (∀ (utts : List Utterance) (uid radius : Nat),
        (∀ u ∈ utts, u.id ≠ uid) →
        get_context_around_utterance utts uid radius = []) := by
  constructor
  · intro utts hlen hid
    have hfind5 : findUtteranceIdx 5 utts = some 4 := by
      apply findUtteranceIdx_eq_some 5 utts 4 (by omega)
      · have := hid 4 (by omega)
        rw [this]
      · intro j hj hj4
        have := hid j hj
        rw [this]
        omega
    have hfind1 : findUtteranceIdx 1 utts = some 0 := by
      apply findUtteranceIdx_eq_some 1 utts 0 (by omega)
      · have := hid 0 (by omega)
        rw [this]
      · intro j hj hj0
        exact absurd hj0 (Nat.not_lt_zero j)
    constructor
    · rw [get_context_around_utterance, hfind5]
      rw [List.map_drop, List.map_take, map_id_eq_range utts hid, hlen]
      decide
    · rw [get_context_around_utterance, hfind1]
      rw [List.map_drop, List.map_take, map_id_eq_range utts hid, hlen]
      decide
  · intro utts uid radius h
    rw [get_context_around_utterance, findUtteranceIdx_none uid utts h]

/-- Concrete 10-utterance transcript with sequential ids for the C8
witness. -/
def uttsC8 : List Utterance :=
  [⟨1, "S", 0, 0, ""⟩, ⟨2, "S", 0, 0, ""⟩, ⟨3, "S", 0, 0, ""⟩,
   ⟨4, "S", 0, 0, ""⟩, ⟨5, "S", 0, 0, ""⟩, ⟨6, "S", 0, 0, ""⟩,
   ⟨7, "S", 0, 0, ""⟩, ⟨8, "S", 0, 0, ""⟩, ⟨9, "S", 0, 0, ""⟩,
   ⟨10, "S", 0, 0, ""⟩]

/-- Witness for C8 at a concrete 10-utterance transcript and a concrete
absent id. -/
theorem context_window_clamped_witness :
    uttsC8.length = 10
    ∧ (∀ (i : Nat) (h : i < uttsC8.length), (uttsC8.get ⟨i, h⟩).id = i + 1)
    ∧ ((get_context_around_utterance uttsC8 5 2).map (fun u => u.id)
        = [3, 4, 5, 6, 7]
      ∧ (get_context_around_utterance uttsC8 1 2).map (fun u => u.id)
        = [1, 2, 3])
    ∧ (∀ u ∈ uttsC8, u.id ≠ 42)
    ∧ get_context_around_utterance uttsC8 42 2 = [] := by
  have hlen : uttsC8.length = 10 := rfl
  have hid : ∀ (i : Nat) (h : i < uttsC8.length),
      (uttsC8.get ⟨i, h⟩).id = i + 1 := by decide
  have hnone : ∀ u ∈ uttsC8, u.id ≠ 42 := by decide
  exact ⟨hlen, hid, context_window_clamped.1 uttsC8 hlen hid, hnone,
    context_window_clamped.2 uttsC8 42 2 hnone⟩

end MeetingIntelligence
